import Mathlib

/-!
Verification of the calendar event-layout engine (day view and week view).

The embedding models instants as minutes since the Unix epoch, in the
calendar's default time zone (`Int`; a day is 1440 minutes, day number is
floor division by 1440, matching local-midnight day boundaries).  Events are
read at minute granularity, so `differenceInMinutes` is plain subtraction.
`Array.prototype.sort` is modelled by a stable insertion sort (ECMAScript
requires sort stability).  `areIntervalsOverlapping` (date-fns, default
options) is the strict half-open test on well-formed intervals.
-/

namespace Analog

/-- A calendar event as read by the layout engine.  `end'` is the event's end
instant (`end` is reserved in Lean); for all-day events it is exclusive. -/
structure CalendarEvent where
  id : Nat
  title : String
  start : Int
  end' : Int
  allDay : Bool

deriving instance DecidableEq for CalendarEvent

/-- Day number of an instant (floor of minutes / minutes-per-day). -/
def dayOf (t : Int) : Int := t / 1440

/-- date-fns `isSameDay` in the default time zone. -/
def isSameDay (a b : Int) : Bool := decide (a / 1440 = b / 1440)

/-- date-fns `startOfDay` in the default time zone. -/
def startOfDay (t : Int) : Int := 1440 * (t / 1440)

/-- date-fns `areIntervalsOverlapping` with default options on well-formed
intervals: strict half-open intersection. -/
def areIntervalsOverlapping (aS aE bS bE : Int) : Bool :=
  decide (aS < bE) && decide (bS < aE)

/-- Stable insertion of one element into a list sorted by a JS comparator:
the element goes before the first entry that must come after it, so equal
ranks keep their original relative order (ECMAScript stable sort). -/
def insertSorted (cmp : α → α → Int) (a : α) : List α → List α
  | [] => [a]
  | b :: l => if cmp a b ≤ 0 then a :: b :: l else b :: insertSorted cmp a l

/-- `Array.prototype.sort(cmp)` modelled as a stable insertion sort. -/
def jsSortBy (cmp : α → α → Int) : List α → List α
  | [] => []
  | a :: l => insertSorted cmp a (jsSortBy cmp l)

/-! ### Day view (`day-view.tsx`) -/

/-- Modelled from the spec: `StartHour` lives in the constants module, which
is not among the provided sources.  Its value does not matter to any claim. -/
def StartHour : ℚ := 0

/-- Modelled from the spec: `WeekCellsHeight` lives outside the provided
sources.  Its value does not matter to any claim. -/
def WeekCellsHeight : ℚ := 64

/-- The `dayEvents` filter (day-view.tsx lines 105-119): keep an event when
its start or end falls on the rendered day, or the rendered instant lies
strictly inside the event. -/
def dayEventFilter (c : Int) (e : CalendarEvent) : Bool :=
  isSameDay c e.start || isSameDay c e.end' ||
    (decide (e.start < c) && decide (c < e.end'))

/-- Comparator of the `dayEvents` sort (day-view.tsx lines 120-130):
difference of start times. -/
def cmpStart (a b : CalendarEvent) : Int := a.start - b.start

/-- `dayEvents` (day-view.tsx lines 103-131). -/
def dayEvents (c : Int) (l : List CalendarEvent) : List CalendarEvent :=
  jsSortBy cmpStart (l.filter (dayEventFilter c))

/-- Modelled from the spec: `isMultiDayEvent` lives in the utils module,
which is not among the provided sources.  Per the spec's glossary a
multi-day event is one marked all-day or spanning beyond a single day. -/
def isMultiDayEvent (e : CalendarEvent) : Bool :=
  e.allDay || !(isSameDay e.start e.end')

/-- `allDayEvents` of the day view (day-view.tsx lines 134-139). -/
def allDayEvents (c : Int) (l : List CalendarEvent) : List CalendarEvent :=
  (dayEvents c l).filter (fun e => e.allDay || isMultiDayEvent e)

/-- `timeEvents` (day-view.tsx lines 142-147). -/
def timeEvents (c : Int) (l : List CalendarEvent) : List CalendarEvent :=
  (dayEvents c l).filter (fun e => !e.allDay && !isMultiDayEvent e)

/-- Comparator of `sortedEvents` (day-view.tsx lines 155-175): start time
ascending, ties by duration descending. -/
def cmpTime (a b : CalendarEvent) : Int :=
  if a.start < b.start then -1
  else if b.start < a.start then 1
  else (b.end' - b.start) - (a.end' - a.start)

/-- `sortedEvents` (day-view.tsx line 155). -/
def sortedEvents (c : Int) (l : List CalendarEvent) : List CalendarEvent :=
  jsSortBy cmpTime (timeEvents c l)

/-- `adjustedStart` (day-view.tsx lines 191-193). -/
def adjustedStartOf (c : Int) (e : CalendarEvent) : Int :=
  if isSameDay c e.start then e.start else startOfDay c

/-- `adjustedEnd` (day-view.tsx lines 194-196): `addHours(dayStart, 24)`. -/
def adjustedEndOf (c : Int) (e : CalendarEvent) : Int :=
  if isSameDay c e.end' then e.end' else startOfDay c + 1440

/-- One entry of a packing column (day-view.tsx line 178): the event and its
adjusted end (the stored end is not consulted by the overlap test). -/
structure ColumnEntry where
  event : CalendarEvent
  end' : Int

deriving instance DecidableEq for ColumnEntry

/-- The per-entry check of day-view.tsx lines 215-229: the candidate's
adjusted interval against the placed event's original interval. -/
def entryNoOverlap (aS aE : Int) (x : ColumnEntry) : Bool :=
  !(areIntervalsOverlapping aS aE x.event.start x.event.end')

/-- The column-search loop (day-view.tsx lines 206-236): first index whose
column is empty or admits the adjusted interval; indices past the end of
the column list behave as empty columns. -/
def findColumn (aS aE : Int) : List (List ColumnEntry) → Nat
  | [] => 0
  | col :: rest =>
      if col.all (entryNoOverlap aS aE) then 0 else findColumn aS aE rest + 1

/-- `columns[columnIndex].push(...)` with initialization (day-view.tsx lines
238-241), extending the column list when the index is fresh. -/
def pushCol : List (List ColumnEntry) → Nat → ColumnEntry → List (List ColumnEntry)
  | [], 0, x => [[x]]
  | [], Nat.succ n, x => [] :: pushCol [] n x
  | col :: rest, 0, x => (col ++ [x]) :: rest
  | col :: rest, Nat.succ n, x => col :: pushCol rest n x

/-- Output record of the day view's layout (day-view.tsx lines 40-47).
`col` additionally records the column index chosen for the event (the
source keeps it only implicitly, as `zIndex - 10`). -/
structure PositionedEvent where
  event : CalendarEvent
  top : ℚ
  height : ℚ
  left : ℚ
  width : ℚ
  zIndex : Nat
  col : Nat

deriving instance DecidableEq for PositionedEvent

/-- Builds the positioned record for one event (day-view.tsx lines 198-254).
`getHours + getMinutes/60` of an instant is its minute-of-day over 60. -/
def mkPositioned (c : Int) (e : CalendarEvent) (k : Nat) : PositionedEvent :=
  { event := e
    top := (((adjustedStartOf c e % 1440 : Int) : ℚ) / 60 - StartHour) * WeekCellsHeight
    height := (((adjustedEndOf c e % 1440 : Int) : ℚ) / 60 -
        ((adjustedStartOf c e % 1440 : Int) : ℚ) / 60) * WeekCellsHeight
    left := if k = 0 then 0 else (k : ℚ) * (1 / 10)
    width := if k = 0 then 1 else 9 / 10
    zIndex := 10 + k
    col := k }

/-- The `sortedEvents.forEach` packing loop (day-view.tsx lines 180-255),
threading the mutable `columns` array explicitly. -/
def packEvents (c : Int) : List (List ColumnEntry) → List CalendarEvent → List PositionedEvent
  | _, [] => []
  | cols, e :: rest =>
      mkPositioned c e (findColumn (adjustedStartOf c e) (adjustedEndOf c e) cols) ::
        packEvents c
          (pushCol cols (findColumn (adjustedStartOf c e) (adjustedEndOf c e) cols)
            ⟨e, adjustedEndOf c e⟩)
          rest

/-- The `columns` state after processing a list of events (the loop of
day-view.tsx lines 180-255, projected to its mutable state). -/
def colsAfter (c : Int) : List (List ColumnEntry) → List CalendarEvent → List (List ColumnEntry)
  | cols, [] => cols
  | cols, e :: rest =>
      colsAfter c
        (pushCol cols (findColumn (adjustedStartOf c e) (adjustedEndOf c e) cols)
          ⟨e, adjustedEndOf c e⟩)
        rest

/-- `positionedEvents` (day-view.tsx lines 150-258). -/
def positionedEvents (c : Int) (l : List CalendarEvent) : List PositionedEvent :=
  packEvents c [] (sortedEvents c l)

/-- Half-open interval overlap of two events' stored intervals, the claims'
`aStart < bEnd && bStart < aEnd`. -/
def ovl (a b : CalendarEvent) : Prop := a.start < b.end' ∧ b.start < a.end'

instance (a b : CalendarEvent) : Decidable (ovl a b) := by
  unfold ovl; infer_instance

/-- "Column `k` admits event `e`": every member already placed in column `k`
passes the source's overlap check against `e`'s adjusted interval. -/
def admits (c : Int) (cols : List (List ColumnEntry)) (k : Nat) (e : CalendarEvent) : Prop :=
  ∀ x ∈ cols.getD k [], entryNoOverlap (adjustedStartOf c e) (adjustedEndOf c e) x = true

/-! ### Week view (`week-view.tsx`) -/

/-- date-fns `startOfWeek(c, weekStartsOn: 0)` (week-view.tsx line 211):
midnight of the Sunday starting the week.  Day 0 of the epoch timeline is a
Thursday, so `(day + 4) % 7` is the day of week with Sunday as 0. -/
def startOfWeek (c : Int) : Int := 1440 * (c / 1440 - (c / 1440 + 4) % 7)

/-- Modelled from the spec: `getWeekDays` lives in the utils module, which is
not among the provided sources.  Per the spec a window is 7 contiguous
ascending days; `weekEnd = allDays[allDays.length - 1]`. -/
def getWeekDays (c : Int) : List Int :=
  [startOfWeek c, startOfWeek c + 1440, startOfWeek c + 2880, startOfWeek c + 4320,
    startOfWeek c + 5760, startOfWeek c + 7200, startOfWeek c + 8640]

/-- `weekEnd` (week-view.tsx line 214): the last window day's midnight. -/
def weekEndOf (c : Int) : Int := startOfWeek c + 1440 * 6

/-- date-fns `isWithinInterval`: inclusive on both bounds. -/
def isWithinInterval (x s e : Int) : Bool := decide (s ≤ x) && decide (x ≤ e)

/-- date-fns `isWeekend` in the default time zone. -/
def isWeekend (t : Int) : Bool :=
  (t / 1440 + 4) % 7 == 0 || (t / 1440 + 4) % 7 == 6

/-- date-fns `eachDayOfInterval`: the day starts between the two bounds;
on a reversed interval the days come back in reverse order. -/
def eachDayOfInterval (s e : Int) : List Int :=
  if s ≤ e then
    (List.range (e / 1440 - s / 1440 + 1).toNat).map (fun k => 1440 * (s / 1440) + 1440 * k)
  else
    ((List.range (s / 1440 - e / 1440 + 1).toNat).map
      (fun k => 1440 * (e / 1440) + 1440 * k)).reverse

/-- The all-day end adjustment (week-view.tsx lines 231-234, 259-262,
438-440): all-day events store an exclusive end, so one day is subtracted
before comparisons. -/
def adjustedEventEnd (e : CalendarEvent) : Int :=
  if e.allDay then e.end' - 1440 else e.end'

/-- The week membership filter with weekends shown (week-view.tsx lines
249-268). -/
def weekMembership (c : Int) (e : CalendarEvent) : Bool :=
  isWithinInterval e.start (startOfWeek c) (weekEndOf c) ||
    isWithinInterval (adjustedEventEnd e) (startOfWeek c) (weekEndOf c)

/-- The week membership filter with weekends hidden (week-view.tsx lines
221-246): the event must cover at least one non-weekend day of its clamped
span. -/
def weekMembershipNoWeekends (c : Int) (e : CalendarEvent) : Bool :=
  (eachDayOfInterval
      (if e.start < startOfWeek c then startOfWeek c else e.start)
      (if weekEndOf c < adjustedEventEnd e then weekEndOf c else adjustedEventEnd e)).any
    (fun d => !isWeekend d)

/-- `allDayEvents` of the week view (week-view.tsx lines 215-275), taking
the upstream event collection's all-day list as input. -/
def allDayEventsWeek (showWeekends : Bool) (c : Int) (evs : List CalendarEvent) :
    List CalendarEvent :=
  if showWeekends then evs.filter (weekMembership c)
  else evs.filter (weekMembershipNoWeekends c)

/-- `isFirstDay` of `WeekViewPositionedEvent` (week-view.tsx line 443). -/
def weekIsFirstDay (c : Int) (e : CalendarEvent) : Bool :=
  decide (startOfWeek c ≤ e.start)

/-- `isLastDay` of `WeekViewPositionedEvent` (week-view.tsx lines 437-444). -/
def weekIsLastDay (c : Int) (e : CalendarEvent) : Bool :=
  decide (adjustedEventEnd e ≤ weekEndOf c)

/-- Modelled from the spec: `getGridPosition` (spec 4.4) lives in the utils
module, which is not among the provided sources.  Column index = window days
strictly before the clamped start day; span = days covered by the clamped
interval, at least 1. -/
def getGridPosition (e : CalendarEvent) (weekStart weekEnd : Int) : Nat × Nat :=
  (((max e.start weekStart) / 1440 - weekStart / 1440).toNat,
    max 1 ((min (adjustedEventEnd e) weekEnd) / 1440 -
      (max e.start weekStart) / 1440 + 1).toNat)

/-- Whole-day span of an event clamped to the week window (spec 4.3: an
all-day event occupies every day it spans, clipped to window bounds). -/
def daySpanOf (c : Int) (e : CalendarEvent) : Int × Int :=
  ((max e.start (startOfWeek c)) / 1440, (min (adjustedEventEnd e) (weekEndOf c)) / 1440)

/-- Day-granularity overlap of two inclusive day spans (spec 4.3). -/
def spansOverlap (a b : Int × Int) : Bool := decide (a.1 ≤ b.2) && decide (b.1 ≤ a.2)

/-- `e` covers calendar day `d` within the window: the clamped day span
contains `d`'s day number. -/
def coversDay (c : Int) (e : CalendarEvent) (d : Int) : Bool :=
  decide ((daySpanOf c e).1 ≤ d / 1440) && decide (d / 1440 ≤ (daySpanOf c e).2)

/-- Modelled from the spec: the lane-fit test of `placeIntoLanes` (spec 4.3),
day-granularity first-fit against every member of the lane. -/
def laneFits (c : Int) (e : CalendarEvent) (lane : List CalendarEvent) : Bool :=
  lane.all (fun x => !(spansOverlap (daySpanOf c e) (daySpanOf c x)))

/-- Modelled from the spec: one insertion step of `placeIntoLanes` (spec 4.3):
scan lanes from index 0, place into the first admitting lane, else open a
new lane. -/
def insertIntoLanes (c : Int) (e : CalendarEvent) :
    List (List CalendarEvent) → List (List CalendarEvent)
  | [] => [[e]]
  | lane :: rest =>
      if laneFits c e lane then (lane ++ [e]) :: rest
      else lane :: insertIntoLanes c e rest

/-- Modelled from the spec: `placeIntoLanes` (spec 4.3) lives in the utils
module, which is not among the provided sources.  Events are sorted by the
fixed rule (start ascending, duration descending on ties) and packed
greedily at whole-day granularity. -/
def placeIntoLanes (c : Int) (evs : List CalendarEvent) : List (List CalendarEvent) :=
  (jsSortBy cmpTime evs).foldl (fun lanes e => insertIntoLanes c e lanes) []

/-- The week view configures `minVisibleLanes := 10` (week-view.tsx line 281). -/
def minVisibleLanes : Nat := 10

/-- Modelled from the spec: the visible lanes of `useMultiDayOverflow`
(spec 4.3), the first `minVisibleLanes` lanes. -/
def visibleLanes (c : Int) (evs : List CalendarEvent) : List (List CalendarEvent) :=
  (placeIntoLanes c (allDayEventsWeek true c evs)).take minVisibleLanes

/-- Modelled from the spec: `overflowEvents` of `useMultiDayOverflow`
(spec 4.3), every event beyond the visible lane capacity. -/
def overflowEvents (c : Int) (evs : List CalendarEvent) : List CalendarEvent :=
  ((placeIntoLanes c (allDayEventsWeek true c evs)).drop minVisibleLanes).flatten

/-- `dayOverflowEvents` (week-view.tsx lines 313-320): overflow events
whose start falls on the given day. -/
def dayOverflowEvents (c : Int) (evs : List CalendarEvent) (d : Int) : List CalendarEvent :=
  (overflowEvents c evs).filter (fun e => isSameDay e.start d)

/-- Number of visible lanes carrying an event that covers day `d`. -/
def visibleLaneCount (c : Int) (evs : List CalendarEvent) (d : Int) : Nat :=
  (visibleLanes c evs).countP (fun lane => lane.any (fun e => coversDay c e d))

/-- Number of overflow events covering day `d`. -/
def overflowCountOnDay (c : Int) (evs : List CalendarEvent) (d : Int) : Nat :=
  (overflowEvents c evs).countP (fun e => coversDay c e d)

/-- Total number of all-day-section events covering day `d`. -/
def totalOnDay (c : Int) (evs : List CalendarEvent) (d : Int) : Nat :=
  (allDayEventsWeek true c evs).countP (fun e => coversDay c e d)

end Analog

namespace Analog

theorem insertSorted_perm (cmp : α → α → Int) (a : α) (l : List α) :
    List.Perm (insertSorted cmp a l) (a :: l) := by
  induction l with
  | nil => simp [insertSorted]
  | cons b l ih =>
    by_cases h : cmp a b ≤ 0
    · simp [insertSorted, h]
    · simp only [insertSorted, h, if_neg, if_false]
      exact (List.Perm.cons b ih).trans (List.Perm.swap a b l)

theorem jsSortBy_perm (cmp : α → α → Int) (l : List α) :
    List.Perm (jsSortBy cmp l) l := by
  induction l with
  | nil => simp [jsSortBy]
  | cons a l ih =>
    exact (insertSorted_perm cmp a (jsSortBy cmp l)).trans (ih.cons a)

theorem mem_jsSortBy (cmp : α → α → Int) (l : List α) (a : α) :
    a ∈ jsSortBy cmp l ↔ a ∈ l :=
  (jsSortBy_perm cmp l).mem_iff

theorem mem_insertSorted (cmp : α → α → Int) (a x : α) (l : List α) :
    x ∈ insertSorted cmp a l ↔ x = a ∨ x ∈ l := by
  have h := (insertSorted_perm cmp a l).mem_iff (a := x)
  simpa using h

theorem insertSorted_pairwise (cmp : α → α → Int)
    (htrans : ∀ a b c : α, cmp a b ≤ 0 → cmp b c ≤ 0 → cmp a c ≤ 0)
    (hflip : ∀ a b : α, ¬ cmp a b ≤ 0 → cmp b a ≤ 0)
    (a : α) (l : List α) (hl : l.Pairwise (fun x y => cmp x y ≤ 0)) :
    (insertSorted cmp a l).Pairwise (fun x y => cmp x y ≤ 0) := by
  induction l with
  | nil => simp [insertSorted]
  | cons b l ih =>
    rcases List.pairwise_cons.mp hl with ⟨hb, hl'⟩
    by_cases h : cmp a b ≤ 0
    · simp only [insertSorted, h, if_pos]
      refine List.pairwise_cons.mpr ⟨?_, hl⟩
      intro x hx
      rcases List.mem_cons.mp hx with hxb | hx
      · exact hxb ▸ h
      · exact htrans a b x h (hb x hx)
    · simp only [insertSorted, h, if_neg, if_false]
      refine List.pairwise_cons.mpr ⟨?_, ih hl'⟩
      intro x hx
      rcases (mem_insertSorted cmp a x l).mp hx with hxa | hx
      · exact hxa ▸ hflip a b h
      · exact hb x hx

theorem jsSortBy_pairwise (cmp : α → α → Int)
    (htrans : ∀ a b c : α, cmp a b ≤ 0 → cmp b c ≤ 0 → cmp a c ≤ 0)
    (hflip : ∀ a b : α, ¬ cmp a b ≤ 0 → cmp b a ≤ 0)
    (l : List α) :
    (jsSortBy cmp l).Pairwise (fun x y => cmp x y ≤ 0) := by
  induction l with
  | nil => simp [jsSortBy]
  | cons a l ih => exact insertSorted_pairwise cmp htrans hflip a _ ih

/-- Two sorted lists that are permutations of each other and whose members
are separated by the comparator (ties only between equal elements) are
equal.  Local version of `eq_of_perm_of_sorted` with the antisymmetry
restricted to members. -/
theorem sorted_perm_eq (le : α → α → Prop)
    (l₁ l₂ : List α) (hp : List.Perm l₁ l₂)
    (h₁ : l₁.Pairwise le) (h₂ : l₂.Pairwise le)
    (hanti : ∀ a ∈ l₁, ∀ b ∈ l₁, le a b → le b a → a = b) : l₁ = l₂ := by
  induction l₁ generalizing l₂ with
  | nil => simpa using hp.nil_eq
  | cons a l ih =>
    cases l₂ with
    | nil => exact absurd hp.symm.nil_eq (by simp)
    | cons b l₂ =>
      rcases List.pairwise_cons.mp h₁ with ⟨ha, hl⟩
      rcases List.pairwise_cons.mp h₂ with ⟨hb, hl₂⟩
      have hab : a = b := by
        have hbmem : b ∈ a :: l := hp.mem_iff.mpr (List.mem_cons_self b l₂)
        rcases List.mem_cons.mp hbmem with hba | hbl
        · exact hba.symm
        · have hamem : a ∈ b :: l₂ := hp.mem_iff.mp (List.mem_cons_self a l)
          rcases List.mem_cons.mp hamem with hab | hal
          · exact hab
          · exact hanti a (List.mem_cons_self a l) b (List.mem_cons_of_mem a hbl)
              (ha b hbl) (hb a hal)
      subst hab
      have hres : l = l₂ :=
        ih l₂ hp.cons_inv hl hl₂
          (fun x hx y hy hxy hyx =>
            hanti x (List.mem_cons_of_mem a hx) y (List.mem_cons_of_mem a hy) hxy hyx)
      simp [hres]

/-! ### Day-view helper lemmas -/

theorem cmpTime_le_iff (a b : CalendarEvent) :
    cmpTime a b ≤ 0 ↔
      (a.start < b.start ∨ (a.start = b.start ∧ b.end' - b.start ≤ a.end' - a.start)) := by
  unfold cmpTime
  split_ifs with h1 h2 <;> omega

theorem cmpTime_trans (a b c : CalendarEvent) (h1 : cmpTime a b ≤ 0) (h2 : cmpTime b c ≤ 0) :
    cmpTime a c ≤ 0 := by
  rw [cmpTime_le_iff] at h1 h2 ⊢
  omega

theorem cmpTime_flip (a b : CalendarEvent) (h : ¬ cmpTime a b ≤ 0) : cmpTime b a ≤ 0 := by
  rw [cmpTime_le_iff] at h ⊢
  omega

theorem cmpStart_trans (a b c : CalendarEvent)
    (h1 : cmpStart a b ≤ 0) (h2 : cmpStart b c ≤ 0) : cmpStart a c ≤ 0 := by
  unfold cmpStart at *; omega

theorem cmpStart_flip (a b : CalendarEvent) (h : ¬ cmpStart a b ≤ 0) : cmpStart b a ≤ 0 := by
  unfold cmpStart at *; omega

/-- Every event that reaches the timed-positioning pipeline lies entirely on
the rendered day: the `dayEvents` filter forces the event to touch the day
and `!isMultiDayEvent` forces start and end onto one day. -/
theorem timeEvents_onDay (c : Int) (l : List CalendarEvent) (e : CalendarEvent)
    (h : e ∈ timeEvents c l) :
    isSameDay c e.start = true ∧ isSameDay c e.end' = true := by
  unfold timeEvents at h
  rcases List.mem_filter.mp h with ⟨hday, hflag⟩
  unfold dayEvents at hday
  have hmem := (mem_jsSortBy cmpStart _ e).mp hday
  rcases List.mem_filter.mp hmem with ⟨-, hpred⟩
  simp only [Bool.and_eq_true, Bool.not_eq_true'] at hflag
  have hsame : isSameDay e.start e.end' = true := by
    rcases hflag with ⟨-, hmd⟩
    unfold isMultiDayEvent at hmd
    simp only [Bool.or_eq_false_iff, Bool.not_eq_false'] at hmd
    exact hmd.2
  simp only [isSameDay, decide_eq_true_eq] at hsame ⊢
  simp only [dayEventFilter, isSameDay, Bool.or_eq_true, Bool.and_eq_true,
    decide_eq_true_eq] at hpred
  rcases hpred with (h1 | h2) | h3 <;> omega

theorem mem_sortedEvents_onDay (c : Int) (l : List CalendarEvent) (e : CalendarEvent)
    (h : e ∈ sortedEvents c l) :
    isSameDay c e.start = true ∧ isSameDay c e.end' = true :=
  timeEvents_onDay c l e ((mem_jsSortBy cmpTime _ e).mp h)

/-- For an event lying on the rendered day the adjusted interval is the
original interval. -/
theorem adjusted_eq_of_onDay (c : Int) (e : CalendarEvent)
    (h1 : isSameDay c e.start = true) (h2 : isSameDay c e.end' = true) :
    adjustedStartOf c e = e.start ∧ adjustedEndOf c e = e.end' := by
  unfold adjustedStartOf adjustedEndOf
  simp [h1, h2]

theorem findColumn_le_length (aS aE : Int) (cols : List (List ColumnEntry)) :
    findColumn aS aE cols ≤ cols.length := by
  induction cols with
  | nil => simp [findColumn]
  | cons col rest ih =>
    unfold findColumn
    split_ifs with h
    · simp
    · simpa using Nat.succ_le_succ ih

/-- The chosen column admits the candidate. -/
theorem findColumn_fits (aS aE : Int) (cols : List (List ColumnEntry)) :
    ∀ x ∈ cols.getD (findColumn aS aE cols) [], entryNoOverlap aS aE x = true := by
  induction cols with
  | nil => simp [findColumn]
  | cons col rest ih =>
    unfold findColumn
    split_ifs with h
    · intro x hx
      simp only [List.getD, List.get?_eq_getElem?] at hx
      exact List.all_eq_true.mp h x (by simpa using hx)
    · intro x hx
      exact ih x (by simpa using hx)

/-- Every column below the chosen one rejects the candidate. -/
theorem findColumn_least (aS aE : Int) (cols : List (List ColumnEntry)) :
    ∀ j < findColumn aS aE cols,
      ∃ x ∈ cols.getD j [], entryNoOverlap aS aE x = false := by
  induction cols with
  | nil => simp [findColumn]
  | cons col rest ih =>
    unfold findColumn
    split_ifs with h
    · simp
    · intro j hj
      cases j with
      | zero =>
        rcases List.all_eq_true.not.mp h with hx
        push_neg at hx
        rcases hx with ⟨x, hxmem, hxne⟩
        exact ⟨x, by simpa using hxmem, by simpa using hxne⟩
      | succ j =>
        have hj' : j < findColumn aS aE rest := by omega
        rcases ih j hj' with ⟨x, hxmem, hxval⟩
        exact ⟨x, by simpa using hxmem, hxval⟩

theorem pushCol_getD_self (cols : List (List ColumnEntry)) (k : Nat) (x : ColumnEntry) :
    (pushCol cols k x).getD k [] = cols.getD k [] ++ [x] := by
  induction cols generalizing k with
  | nil =>
    induction k with
    | zero => simp [pushCol]
    | succ k ihk => simpa [pushCol] using ihk
  | cons col rest ih =>
    cases k with
    | zero => simp [pushCol]
    | succ k => simpa [pushCol] using ih k

theorem pushCol_getD_other (cols : List (List ColumnEntry)) (k j : Nat) (x : ColumnEntry)
    (h : j ≠ k) : (pushCol cols k x).getD j [] = cols.getD j [] := by
  induction cols generalizing k j with
  | nil =>
    induction k generalizing j with
    | zero =>
      cases j with
      | zero => omega
      | succ j => simp [pushCol]
    | succ k ihk =>
      cases j with
      | zero => simp [pushCol]
      | succ j => simpa [pushCol] using ihk j (by omega)
  | cons col rest ih =>
    cases k with
    | zero =>
      cases j with
      | zero => omega
      | succ j => simp [pushCol]
    | succ k =>
      cases j with
      | zero => simp [pushCol]
      | succ j => simpa [pushCol] using ih k j (by omega)

theorem pushCol_getD_subset (cols : List (List ColumnEntry)) (k j : Nat) (x y : ColumnEntry)
    (h : y ∈ cols.getD j []) : y ∈ (pushCol cols k x).getD j [] := by
  by_cases hjk : j = k
  · subst hjk
    rw [pushCol_getD_self]
    exact List.mem_append_left _ h
  · rw [pushCol_getD_other cols k j x hjk]
    exact h

theorem packEvents_event_mem (c : Int) (cols : List (List ColumnEntry))
    (es : List CalendarEvent) (p : PositionedEvent) (h : p ∈ packEvents c cols es) :
    p.event ∈ es := by
  induction es generalizing cols with
  | nil => simp [packEvents] at h
  | cons e rest ih =>
    simp only [packEvents, List.mem_cons] at h
    rcases h with rfl | h
    · simp [mkPositioned]
    · exact List.mem_cons_of_mem e (ih _ h)

theorem ovl_symm (a b : CalendarEvent) (h : ovl a b) : ovl b a := ⟨h.2, h.1⟩

theorem entryNoOverlap_iff (c : Int) (e : CalendarEvent) (x : ColumnEntry)
    (h1 : isSameDay c e.start = true) (h2 : isSameDay c e.end' = true) :
    entryNoOverlap (adjustedStartOf c e) (adjustedEndOf c e) x = true ↔ ¬ ovl e x.event := by
  rcases adjusted_eq_of_onDay c e h1 h2 with ⟨hs, he⟩
  rw [hs, he]
  simp only [entryNoOverlap, areIntervalsOverlapping, ovl, Bool.not_eq_true',
    Bool.and_eq_false_iff, decide_eq_false_iff_not]
  constructor
  · rintro (h | h) ⟨ha, hb⟩ <;> omega
  · intro h
    by_cases hh : e.start < x.event.end'
    · right; intro hb; exact h ⟨hh, hb⟩
    · left; exact hh

/-- Invariant of the packing loop: the produced records never put two
half-open-overlapping events into the same column, and each record's event
is separated from everything already stored in its column. -/
theorem packEvents_invariant (c : Int) (es : List CalendarEvent)
    (cols : List (List ColumnEntry))
    (hes : ∀ e ∈ es, isSameDay c e.start = true ∧ isSameDay c e.end' = true) :
    (∀ p ∈ packEvents c cols es, ∀ x ∈ cols.getD p.col [], ¬ ovl p.event x.event) ∧
      (packEvents c cols es).Pairwise
        (fun p q => p.col = q.col → ¬ ovl p.event q.event) := by
  induction es generalizing cols with
  | nil => simp [packEvents]
  | cons e rest ih =>
    have honDay := hes e (List.mem_cons_self e rest)
    have hrest : ∀ x ∈ rest, isSameDay c x.start = true ∧ isSameDay c x.end' = true :=
      fun x hx => hes x (List.mem_cons_of_mem e hx)
    have ihspec := ih (pushCol cols
      (findColumn (adjustedStartOf c e) (adjustedEndOf c e) cols) ⟨e, adjustedEndOf c e⟩) hrest
    constructor
    · intro p hp x hx
      simp only [packEvents, List.mem_cons] at hp
      rcases hp with rfl | hp
      · have hfit := findColumn_fits (adjustedStartOf c e) (adjustedEndOf c e) cols x
          (by simpa [mkPositioned] using hx)
        have := (entryNoOverlap_iff c e x honDay.1 honDay.2).mp hfit
        simpa [mkPositioned] using this
      · exact ihspec.1 p hp x (pushCol_getD_subset cols _ p.col _ x hx)
    · simp only [packEvents]
      refine List.pairwise_cons.mpr ⟨?_, ihspec.2⟩
      intro q hq hcol
      have hself : (⟨e, adjustedEndOf c e⟩ : ColumnEntry) ∈
          (pushCol cols (findColumn (adjustedStartOf c e) (adjustedEndOf c e) cols)
            ⟨e, adjustedEndOf c e⟩).getD
            (findColumn (adjustedStartOf c e) (adjustedEndOf c e) cols) [] := by
        rw [pushCol_getD_self]
        exact List.mem_append_right _ (List.mem_singleton_self _)
      have hq' := ihspec.1 q hq ⟨e, adjustedEndOf c e⟩ (by
        have hcol' : q.col = findColumn (adjustedStartOf c e) (adjustedEndOf c e) cols := by
          simpa [mkPositioned] using hcol.symm
        rw [hcol']
        exact hself)
      intro hov
      exact hq' (ovl_symm _ _ (by simpa [mkPositioned] using hov))

/-- **C1** — For every set of timed single-day events laid out by the day
view's column packing, no two events assigned the same column have
overlapping intervals under the half-open overlap definition
(`aStart < bEnd && bStart < aEnd`). -/
theorem c1_same_column_no_overlap (c : Int) (l : List CalendarEvent) :
    (positionedEvents c l).Pairwise
      (fun p q => p.col = q.col →
        ¬ (p.event.start < q.event.end' ∧ q.event.start < p.event.end')) := by
  have h := (packEvents_invariant c (sortedEvents c l) []
    (fun e he => mem_sortedEvents_onDay c l e he)).2
  exact h

theorem packEvents_append (c : Int) (cols : List (List ColumnEntry))
    (l₁ l₂ : List CalendarEvent) :
    packEvents c cols (l₁ ++ l₂) =
      packEvents c cols l₁ ++ packEvents c (colsAfter c cols l₁) l₂ := by
  induction l₁ generalizing cols with
  | nil => simp [packEvents, colsAfter]
  | cons e rest ih => simp [packEvents, colsAfter, ih]

theorem packEvents_length (c : Int) (cols : List (List ColumnEntry))
    (es : List CalendarEvent) : (packEvents c cols es).length = es.length := by
  induction es generalizing cols with
  | nil => simp [packEvents]
  | cons e rest ih => simp [packEvents, ih]

theorem packEvents_map_event (c : Int) (cols : List (List ColumnEntry))
    (es : List CalendarEvent) :
    (packEvents c cols es).map (fun p => p.event) = es := by
  induction es generalizing cols with
  | nil => simp [packEvents]
  | cons e rest ih => simp [packEvents, mkPositioned, ih]

/-- **C4** — The day view's column assignment processes events sorted by
start time ascending with ties broken by duration descending, in that
order, and places each event into the lowest-indexed column whose
already-placed members do not overlap it, opening a new column only when
no existing column admits it. -/
theorem c4_sorted_greedy_least_column (c : Int) (l : List CalendarEvent)
    (es₁ : List CalendarEvent) (e : CalendarEvent) (es₂ : List CalendarEvent)
    (hsplit : sortedEvents c l = es₁ ++ e :: es₂) :
    (sortedEvents c l).Pairwise (fun a b =>
      a.start < b.start ∨ (a.start = b.start ∧ b.end' - b.start ≤ a.end' - a.start)) ∧
    (positionedEvents c l).map (fun p => p.event) = sortedEvents c l ∧
    ∃ p, (positionedEvents c l).get? es₁.length = some p ∧ p.event = e ∧
      admits c (colsAfter c [] es₁) p.col e ∧
      ∀ j < p.col, ¬ admits c (colsAfter c [] es₁) j e := by
  refine ⟨?_, packEvents_map_event c [] (sortedEvents c l), ?_⟩
  · have h := jsSortBy_pairwise cmpTime cmpTime_trans cmpTime_flip (timeEvents c l)
    exact List.Pairwise.imp (fun hab => (cmpTime_le_iff _ _).mp hab) h
  · unfold positionedEvents
    rw [hsplit, packEvents_append]
    have hlen : (packEvents c [] es₁).length = es₁.length := packEvents_length c [] es₁
    refine ⟨mkPositioned c e
      (findColumn (adjustedStartOf c e) (adjustedEndOf c e) (colsAfter c [] es₁)), ?_, rfl, ?_, ?_⟩
    · rw [List.get?_eq_getElem?, List.getElem?_append_right (by omega)]
      simp [hlen, packEvents]
    · intro x hx
      exact findColumn_fits (adjustedStartOf c e) (adjustedEndOf c e) (colsAfter c [] es₁) x
        (by simpa [mkPositioned] using hx)
    · intro j hj hadm
      rcases findColumn_least (adjustedStartOf c e) (adjustedEndOf c e) (colsAfter c [] es₁) j
        (by simpa [mkPositioned] using hj) with ⟨x, hxmem, hxval⟩
      have hcontra := hadm x hxmem
      rw [hcontra] at hxval
      exact absurd hxval (by simp)

/-- Witness for C4 at a concrete input: two overlapping events on day 0;
the second event of the sorted list is admitted by no column below its own. -/
theorem c4_witness :
    (sortedEvents 0 [⟨1, "", 540, 600, false⟩, ⟨2, "", 570, 630, false⟩]).Pairwise
      (fun a b =>
        a.start < b.start ∨ (a.start = b.start ∧ b.end' - b.start ≤ a.end' - a.start)) ∧
    (positionedEvents 0 [⟨1, "", 540, 600, false⟩, ⟨2, "", 570, 630, false⟩]).map
      (fun p => p.event) =
      sortedEvents 0 [⟨1, "", 540, 600, false⟩, ⟨2, "", 570, 630, false⟩] ∧
    ∃ p, (positionedEvents 0
        [⟨1, "", 540, 600, false⟩, ⟨2, "", 570, 630, false⟩]).get?
        [(⟨1, "", 540, 600, false⟩ : CalendarEvent)].length = some p ∧
      p.event = ⟨2, "", 570, 630, false⟩ ∧
      admits 0 (colsAfter 0 [] [⟨1, "", 540, 600, false⟩]) p.col ⟨2, "", 570, 630, false⟩ ∧
      ∀ j < p.col, ¬ admits 0 (colsAfter 0 [] [⟨1, "", 540, 600, false⟩]) j
        ⟨2, "", 570, 630, false⟩ :=
  c4_sorted_greedy_least_column 0 [⟨1, "", 540, 600, false⟩, ⟨2, "", 570, 630, false⟩]
    [⟨1, "", 540, 600, false⟩] ⟨2, "", 570, 630, false⟩ [] (by decide)

theorem packEvents_style (c : Int) (cols : List (List ColumnEntry))
    (es : List CalendarEvent) (p : PositionedEvent) (h : p ∈ packEvents c cols es) :
    (p.col = 0 → p.width = 1 ∧ p.left = 0) ∧
      (0 < p.col → p.width = 9 / 10 ∧ p.left = (p.col : ℚ) * (1 / 10)) ∧
      p.zIndex = 10 + p.col := by
  induction es generalizing cols with
  | nil => simp [packEvents] at h
  | cons e rest ih =>
    simp only [packEvents, List.mem_cons] at h
    rcases h with rfl | h
    · refine ⟨?_, ?_, rfl⟩
      · intro hk
        simp [mkPositioned] at hk ⊢
        simp [hk]
      · intro hk
        simp only [mkPositioned] at hk ⊢
        have : ¬ (findColumn (adjustedStartOf c e) (adjustedEndOf c e) cols = 0) := by omega
        simp [this]
    · exact ih _ h

/-- **C5** — Lane 0 renders at full width with no offset; lane `k > 0`
renders at width 0.9 with left offset `k × 0.1`; the z-index is `10 + k`,
hence strictly increasing in the column index.  Concretely, for
A [09:00–10:00) and B [09:30–10:30) on the same day, A gets lane 0 at
width 1 and B gets lane 1 at width 0.9 with left offset 0.1. -/
theorem c5_width_offset_zindex :
    (∀ (c : Int) (l : List CalendarEvent) (p : PositionedEvent),
      p ∈ positionedEvents c l →
        (p.col = 0 → p.width = 1 ∧ p.left = 0) ∧
        (0 < p.col → p.width = 9 / 10 ∧ p.left = (p.col : ℚ) * (1 / 10)) ∧
        p.zIndex = 10 + p.col) ∧
    (∀ (c : Int) (l : List CalendarEvent) (p q : PositionedEvent),
      p ∈ positionedEvents c l → q ∈ positionedEvents c l →
        p.col < q.col → p.zIndex < q.zIndex) ∧
    (positionedEvents 0 [⟨1, "A", 540, 600, false⟩, ⟨2, "B", 570, 630, false⟩]).map
      (fun p => (p.event.id, p.col, p.width, p.left)) =
      [(1, 0, (1 : ℚ), (0 : ℚ)), (2, 1, 9 / 10, 1 / 10)] := by
  refine ⟨fun c l p hp => packEvents_style c [] _ p hp, ?_, ?_⟩
  · intro c l p q hp hq hlt
    have h1 := (packEvents_style c [] _ p hp).2.2
    have h2 := (packEvents_style c [] _ q hq).2.2
    omega
  · have hstep : positionedEvents 0 [⟨1, "A", 540, 600, false⟩, ⟨2, "B", 570, 630, false⟩] =
        [mkPositioned 0 ⟨1, "A", 540, 600, false⟩ 0,
          mkPositioned 0 ⟨2, "B", 570, 630, false⟩ 1] := rfl
    rw [hstep]
    simp [mkPositioned]

/-- Witness for C5 at a concrete input: the two scenario events, B's record
stacking strictly above A's. -/
theorem c5_witness :
    (mkPositioned 0 ⟨1, "A", 540, 600, false⟩ 0).zIndex <
      (mkPositioned 0 ⟨2, "B", 570, 630, false⟩ 1).zIndex := by
  have hstep : positionedEvents 0 [⟨1, "A", 540, 600, false⟩, ⟨2, "B", 570, 630, false⟩] =
      [mkPositioned 0 ⟨1, "A", 540, 600, false⟩ 0,
        mkPositioned 0 ⟨2, "B", 570, 630, false⟩ 1] := rfl
  exact c5_width_offset_zindex.2.1 0
    [⟨1, "A", 540, 600, false⟩, ⟨2, "B", 570, 630, false⟩]
    (mkPositioned 0 ⟨1, "A", 540, 600, false⟩ 0)
    (mkPositioned 0 ⟨2, "B", 570, 630, false⟩ 1)
    (by rw [hstep]; exact List.mem_cons_self _ _)
    (by rw [hstep]; exact List.mem_cons_of_mem _ (List.mem_cons_self _ _))
    (by decide)

/-! ### Window exclusion (day view) -/

theorem not_mem_dayEvents_of_filter_false (c : Int) (l : List CalendarEvent)
    (e : CalendarEvent) (h : dayEventFilter c e = false) : e ∉ dayEvents c l := by
  intro hmem
  unfold dayEvents at hmem
  have hm := (mem_jsSortBy cmpStart _ e).mp hmem
  rcases List.mem_filter.mp hm with ⟨-, hpred⟩
  rw [h] at hpred
  exact absurd hpred (by simp)

theorem mem_timeEvents_mem_dayEvents (c : Int) (l : List CalendarEvent)
    (e : CalendarEvent) (h : e ∈ timeEvents c l) : e ∈ dayEvents c l :=
  (List.mem_filter.mp h).1

theorem mem_allDayEvents_mem_dayEvents (c : Int) (l : List CalendarEvent)
    (e : CalendarEvent) (h : e ∈ allDayEvents c l) : e ∈ dayEvents c l :=
  (List.mem_filter.mp h).1

theorem positioned_event_mem_timeEvents (c : Int) (l : List CalendarEvent)
    (p : PositionedEvent) (h : p ∈ positionedEvents c l) : p.event ∈ timeEvents c l :=
  (mem_jsSortBy cmpTime _ p.event).mp (packEvents_event_mem c [] _ p h)

/-- **C2 (amended)** — A well-formed event ending strictly before the
rendered day's starting midnight, or starting at or after the day's ending
midnight, appears in none of the day view's outputs; and every positioned
timed event lies entirely on the rendered day (partially overlapping events
never reach the timed grid, the clamp notwithstanding). -/
theorem c2_window_exclusion (c : Int) (l : List CalendarEvent) (e : CalendarEvent)
    (hwf : e.start ≤ e.end') :
    (e.end' < startOfDay c →
      e ∉ dayEvents c l ∧ e ∉ allDayEvents c l ∧ e ∉ timeEvents c l ∧
        ∀ p ∈ positionedEvents c l, p.event ≠ e) ∧
    (startOfDay c + 1440 ≤ e.start →
      e ∉ dayEvents c l ∧ e ∉ allDayEvents c l ∧ e ∉ timeEvents c l ∧
        ∀ p ∈ positionedEvents c l, p.event ≠ e) ∧
    (∀ p ∈ positionedEvents c l,
      isSameDay c p.event.start = true ∧ isSameDay c p.event.end' = true) := by
  have hmain : ∀ hfil : dayEventFilter c e = false,
      e ∉ dayEvents c l ∧ e ∉ allDayEvents c l ∧ e ∉ timeEvents c l ∧
        ∀ p ∈ positionedEvents c l, p.event ≠ e := by
    intro hfil
    have hday := not_mem_dayEvents_of_filter_false c l e hfil
    refine ⟨hday, fun h => hday (mem_allDayEvents_mem_dayEvents c l e h),
      fun h => hday (mem_timeEvents_mem_dayEvents c l e h), ?_⟩
    intro p hp hpe
    have := positioned_event_mem_timeEvents c l p hp
    rw [hpe] at this
    exact hday (mem_timeEvents_mem_dayEvents c l e this)
  refine ⟨?_, ?_, ?_⟩
  · intro hbefore
    refine hmain ?_
    simp only [dayEventFilter, isSameDay, startOfDay, Bool.or_eq_false_iff,
      Bool.and_eq_false_iff, decide_eq_false_iff_not] at hbefore ⊢
    omega
  · intro hafter
    refine hmain ?_
    simp only [dayEventFilter, isSameDay, startOfDay, Bool.or_eq_false_iff,
      Bool.and_eq_false_iff, decide_eq_false_iff_not] at hafter ⊢
    omega
  · intro p hp
    exact timeEvents_onDay c l p.event (positioned_event_mem_timeEvents c l p hp)

/-- Counterexample to C2 as stated: a timed event `[day0 23:00, day1 00:00)`
is fully outside the rendered day 1 under the half-open definition (its
exclusive end equals the day's starting midnight), yet the day view shows
it — `isSameDay(currentDate, eventEnd)` admits it into `dayEvents` and it
reaches the all-day section (or, routed as a timed event, the grid). -/
theorem c2_counterexample :
    (⟨1, "", 1380, 1440, false⟩ : CalendarEvent).end' ≤ startOfDay 1440 ∧
    ((⟨1, "", 1380, 1440, false⟩ : CalendarEvent) ∈
        allDayEvents 1440 [⟨1, "", 1380, 1440, false⟩] ∨
      ∃ p ∈ positionedEvents 1440 [⟨1, "", 1380, 1440, false⟩],
        p.event = ⟨1, "", 1380, 1440, false⟩) := by
  decide

/-- Witness for C2 (amended) at a concrete input: an event on day 0 is
excluded from every output of the day view rendered at day 1. -/
theorem c2_witness :
    ((⟨1, "", 0, 60, false⟩ : CalendarEvent).end' < startOfDay 1440 →
      (⟨1, "", 0, 60, false⟩ : CalendarEvent) ∉ dayEvents 1440 [⟨1, "", 0, 60, false⟩] ∧
        (⟨1, "", 0, 60, false⟩ : CalendarEvent) ∉ allDayEvents 1440 [⟨1, "", 0, 60, false⟩] ∧
        (⟨1, "", 0, 60, false⟩ : CalendarEvent) ∉ timeEvents 1440 [⟨1, "", 0, 60, false⟩] ∧
        ∀ p ∈ positionedEvents 1440 [⟨1, "", 0, 60, false⟩],
          p.event ≠ ⟨1, "", 0, 60, false⟩) ∧
    (startOfDay 1440 + 1440 ≤ (⟨1, "", 0, 60, false⟩ : CalendarEvent).start →
      (⟨1, "", 0, 60, false⟩ : CalendarEvent) ∉ dayEvents 1440 [⟨1, "", 0, 60, false⟩] ∧
        (⟨1, "", 0, 60, false⟩ : CalendarEvent) ∉ allDayEvents 1440 [⟨1, "", 0, 60, false⟩] ∧
        (⟨1, "", 0, 60, false⟩ : CalendarEvent) ∉ timeEvents 1440 [⟨1, "", 0, 60, false⟩] ∧
        ∀ p ∈ positionedEvents 1440 [⟨1, "", 0, 60, false⟩],
          p.event ≠ ⟨1, "", 0, 60, false⟩) ∧
    (∀ p ∈ positionedEvents 1440 [⟨1, "", 0, 60, false⟩],
      isSameDay 1440 p.event.start = true ∧ isSameDay 1440 p.event.end' = true) :=
  c2_window_exclusion 1440 [⟨1, "", 0, 60, false⟩] ⟨1, "", 0, 60, false⟩ (by decide)

/-! ### Determinism up to comparator separation -/

theorem timeEvents_perm (c : Int) (l₁ l₂ : List CalendarEvent) (h : l₁.Perm l₂) :
    (timeEvents c l₁).Perm (timeEvents c l₂) := by
  unfold timeEvents dayEvents
  refine List.Perm.filter _ ?_
  exact (jsSortBy_perm cmpStart _).trans ((h.filter _).trans (jsSortBy_perm cmpStart _).symm)

theorem mem_timeEvents_mem_input (c : Int) (l : List CalendarEvent) (e : CalendarEvent)
    (h : e ∈ timeEvents c l) : e ∈ l := by
  have h1 := mem_timeEvents_mem_dayEvents c l e h
  unfold dayEvents at h1
  exact (List.mem_filter.mp ((mem_jsSortBy cmpStart _ e).mp h1)).1

/-- **C8 (amended)** — The layout is a pure function of its inputs; two runs
over permuted input lists yield identical positioned events provided the
fixed sort rule separates the events (no two distinct events share both
start time and duration).  (With full ties the lane assignment follows the
input order; see the counterexample.) -/
theorem c8_deterministic_layout (c : Int) (l₁ l₂ : List CalendarEvent)
    (hperm : l₁.Perm l₂)
    (hsep : ∀ a ∈ l₁, ∀ b ∈ l₁,
      a.start = b.start → a.end' - a.start = b.end' - b.start → a = b) :
    positionedEvents c l₁ = positionedEvents c l₂ := by
  have hsorteq : sortedEvents c l₁ = sortedEvents c l₂ := by
    refine sorted_perm_eq (fun a b => cmpTime a b ≤ 0) _ _ ?_ ?_ ?_ ?_
    · exact (jsSortBy_perm cmpTime _).trans
        ((timeEvents_perm c l₁ l₂ hperm).trans (jsSortBy_perm cmpTime _).symm)
    · exact jsSortBy_pairwise cmpTime cmpTime_trans cmpTime_flip _
    · exact jsSortBy_pairwise cmpTime cmpTime_trans cmpTime_flip _
    · intro a ha b hb hab hba
      have ha' : a ∈ l₁ :=
        mem_timeEvents_mem_input c l₁ a ((mem_jsSortBy cmpTime _ a).mp ha)
      have hb' : b ∈ l₁ :=
        mem_timeEvents_mem_input c l₁ b ((mem_jsSortBy cmpTime _ b).mp hb)
      rw [cmpTime_le_iff] at hab hba
      exact hsep a ha' b hb' (by omega) (by omega)
  unfold positionedEvents
  rw [hsorteq]

/-- Counterexample to C8 as stated: two distinct events with identical
intervals (a complete comparator tie) swap lanes when the input order is
reversed, so "identical outputs for any input order" fails. -/
theorem c8_counterexample :
    List.Perm [(⟨1, "", 540, 600, false⟩ : CalendarEvent), ⟨2, "", 540, 600, false⟩]
      [⟨2, "", 540, 600, false⟩, ⟨1, "", 540, 600, false⟩] ∧
    positionedEvents 0 [⟨1, "", 540, 600, false⟩, ⟨2, "", 540, 600, false⟩] ≠
      positionedEvents 0 [⟨2, "", 540, 600, false⟩, ⟨1, "", 540, 600, false⟩] := by
  decide

/-- Witness for C8 (amended) at a concrete input: two separated events give
the same layout in either input order. -/
theorem c8_witness :
    positionedEvents 0 [⟨1, "", 540, 600, false⟩, ⟨2, "", 570, 630, false⟩] =
      positionedEvents 0 [⟨2, "", 570, 630, false⟩, ⟨1, "", 540, 600, false⟩] :=
  c8_deterministic_layout 0 [⟨1, "", 540, 600, false⟩, ⟨2, "", 570, 630, false⟩]
    [⟨2, "", 570, 630, false⟩, ⟨1, "", 540, 600, false⟩] (by decide) (by decide)

/-! ### Frame condition: the engine never alters its inputs -/

/-- **C9** — The layout never mutates its inputs: modelled functionally,
every output record references an input event verbatim (same start, end,
allDay flag and all other fields); the day-bound clamp only feeds the
derived `top`/`height`, never the stored event.  (The source only copies:
`[...timeEvents].sort`, `filter`, and local `let` rebinding; it never writes
an event field.) -/
theorem c9_no_input_mutation (c : Int) (l evs : List CalendarEvent) (swk : Bool) :
    (∀ p ∈ positionedEvents c l, p.event ∈ l) ∧
    (∀ e ∈ allDayEvents c l, e ∈ l) ∧
    (∀ e ∈ allDayEventsWeek swk c evs, e ∈ evs) := by
  refine ⟨?_, ?_, ?_⟩
  · intro p hp
    exact mem_timeEvents_mem_input c l p.event (positioned_event_mem_timeEvents c l p hp)
  · intro e he
    have h1 := mem_allDayEvents_mem_dayEvents c l e he
    unfold dayEvents at h1
    exact (List.mem_filter.mp ((mem_jsSortBy cmpStart _ e).mp h1)).1
  · intro e he
    unfold allDayEventsWeek at he
    split_ifs at he <;> exact (List.mem_filter.mp he).1

/-- Witness for C9 at a concrete input: the positioned record's event is
the input record itself. -/
theorem c9_witness :
    (mkPositioned 0 ⟨1, "A", 540, 600, false⟩ 0).event ∈
      [(⟨1, "A", 540, 600, false⟩ : CalendarEvent)] := by
  have hstep : positionedEvents 0 [⟨1, "A", 540, 600, false⟩] =
      [mkPositioned 0 ⟨1, "A", 540, 600, false⟩ 0] := rfl
  exact (c9_no_input_mutation 0 [⟨1, "A", 540, 600, false⟩] [] true).1
    (mkPositioned 0 ⟨1, "A", 540, 600, false⟩ 0)
    (by rw [hstep]; exact List.mem_cons_self _ _)

/-! ### Week view: all-day end adjustment -/

/-- **C6** — For every all-day event processed by the week view, the end is
decremented by one day before any window-membership or span comparison:
membership tests, weekend filtering, the last-day flag, the whole-day lane
span, and the grid position all factor through `end - 1 day`. -/
theorem c6_allday_end_decrement (c : Int) (e : CalendarEvent) (h : e.allDay = true) :
    weekMembership c e =
      (isWithinInterval e.start (startOfWeek c) (weekEndOf c) ||
        isWithinInterval (e.end' - 1440) (startOfWeek c) (weekEndOf c)) ∧
    weekMembershipNoWeekends c e =
      ((eachDayOfInterval
          (if e.start < startOfWeek c then startOfWeek c else e.start)
          (if weekEndOf c < e.end' - 1440 then weekEndOf c else e.end' - 1440)).any
        (fun d => !isWeekend d)) ∧
    weekIsLastDay c e = decide (e.end' - 1440 ≤ weekEndOf c) ∧
    daySpanOf c e =
      ((max e.start (startOfWeek c)) / 1440, (min (e.end' - 1440) (weekEndOf c)) / 1440) ∧
    getGridPosition e (startOfWeek c) (weekEndOf c) =
      (((max e.start (startOfWeek c)) / 1440 - startOfWeek c / 1440).toNat,
        max 1 ((min (e.end' - 1440) (weekEndOf c)) / 1440 -
          (max e.start (startOfWeek c)) / 1440 + 1).toNat) := by
  refine ⟨?_, ?_, ?_, ?_, ?_⟩ <;>
    simp [weekMembership, weekMembershipNoWeekends, weekIsLastDay, daySpanOf,
      getGridPosition, adjustedEventEnd, h]

/-- Witness for C6 at a concrete input: a two-day all-day event starting on
the window's first day. -/
theorem c6_witness :
    weekMembership 4320 ⟨1, "", 4320, 7200, true⟩ =
      (isWithinInterval 4320 (startOfWeek 4320) (weekEndOf 4320) ||
        isWithinInterval (7200 - 1440) (startOfWeek 4320) (weekEndOf 4320)) ∧
    weekMembershipNoWeekends 4320 ⟨1, "", 4320, 7200, true⟩ =
      ((eachDayOfInterval
          (if (4320 : Int) < startOfWeek 4320 then startOfWeek 4320 else 4320)
          (if weekEndOf 4320 < (7200 : Int) - 1440 then weekEndOf 4320 else 7200 - 1440)).any
        (fun d => !isWeekend d)) ∧
    weekIsLastDay 4320 ⟨1, "", 4320, 7200, true⟩ =
      decide ((7200 : Int) - 1440 ≤ weekEndOf 4320) ∧
    daySpanOf 4320 ⟨1, "", 4320, 7200, true⟩ =
      ((max 4320 (startOfWeek 4320)) / 1440,
        (min ((7200 : Int) - 1440) (weekEndOf 4320)) / 1440) ∧
    getGridPosition ⟨1, "", 4320, 7200, true⟩ (startOfWeek 4320) (weekEndOf 4320) =
      (((max 4320 (startOfWeek 4320)) / 1440 - startOfWeek 4320 / 1440).toNat,
        max 1 ((min ((7200 : Int) - 1440) (weekEndOf 4320)) / 1440 -
          (max 4320 (startOfWeek 4320)) / 1440 + 1).toNat) :=
  c6_allday_end_decrement 4320 ⟨1, "", 4320, 7200, true⟩ rfl

/-! ### Week view: lane packing machinery -/

theorem insertIntoLanes_flatten_perm (c : Int) (e : CalendarEvent)
    (L : List (List CalendarEvent)) :
    (insertIntoLanes c e L).flatten.Perm (e :: L.flatten) := by
  induction L with
  | nil => simp [insertIntoLanes]
  | cons lane rest ih =>
    unfold insertIntoLanes
    split_ifs with h
    · simp only [List.flatten_cons, List.append_assoc, List.singleton_append]
      exact List.perm_middle
    · simp only [List.flatten_cons]
      exact ((ih.append_left lane).trans List.perm_middle)

theorem foldl_insert_flatten_perm (c : Int) (es : List CalendarEvent)
    (L : List (List CalendarEvent)) :
    ((es.foldl (fun lanes e => insertIntoLanes c e lanes) L).flatten).Perm
      (L.flatten ++ es) := by
  induction es generalizing L with
  | nil => simp
  | cons e rest ih =>
    simp only [List.foldl_cons]
    refine (ih (insertIntoLanes c e L)).trans ?_
    refine (((insertIntoLanes_flatten_perm c e L).append_right rest).trans ?_)
    exact List.perm_middle.symm

theorem placeIntoLanes_flatten_perm (c : Int) (evs : List CalendarEvent) :
    (placeIntoLanes c evs).flatten.Perm evs := by
  unfold placeIntoLanes
  refine (foldl_insert_flatten_perm c _ []).trans ?_
  simpa using jsSortBy_perm cmpTime evs

theorem spansOverlap_symm (a b : Int × Int) : spansOverlap a b = spansOverlap b a := by
  simp [spansOverlap, Bool.and_comm]

theorem insertIntoLanes_disjoint (c : Int) (e : CalendarEvent)
    (L : List (List CalendarEvent))
    (h : ∀ lane ∈ L,
      lane.Pairwise (fun a b => spansOverlap (daySpanOf c a) (daySpanOf c b) = false)) :
    ∀ lane ∈ insertIntoLanes c e L,
      lane.Pairwise (fun a b => spansOverlap (daySpanOf c a) (daySpanOf c b) = false) := by
  induction L with
  | nil =>
    intro lane hlane
    simp only [insertIntoLanes, List.mem_singleton] at hlane
    simp [hlane]
  | cons l0 rest ih =>
    intro lane hlane
    unfold insertIntoLanes at hlane
    split_ifs at hlane with hfit
    · rcases List.mem_cons.mp hlane with rfl | hlane
      · refine List.pairwise_append.mpr ⟨h l0 (List.mem_cons_self l0 rest), by simp, ?_⟩
        intro a ha b hb
        have hb' : b = e := List.mem_singleton.mp hb
        subst hb'
        have hall := List.all_eq_true.mp hfit a ha
        simp only [Bool.not_eq_true'] at hall
        rw [spansOverlap_symm]
        exact hall
      · exact h lane (List.mem_cons_of_mem l0 hlane)
    · rcases List.mem_cons.mp hlane with rfl | hlane
      · exact h lane (List.mem_cons_self lane rest)
      · exact ih (fun x hx => h x (List.mem_cons_of_mem l0 hx)) lane hlane

theorem placeIntoLanes_disjoint (c : Int) (evs : List CalendarEvent) :
    ∀ lane ∈ placeIntoLanes c evs,
      lane.Pairwise (fun a b => spansOverlap (daySpanOf c a) (daySpanOf c b) = false) := by
  have hgen : ∀ (es : List CalendarEvent) (L : List (List CalendarEvent)),
      (∀ lane ∈ L,
        lane.Pairwise (fun a b => spansOverlap (daySpanOf c a) (daySpanOf c b) = false)) →
      ∀ lane ∈ es.foldl (fun lanes e => insertIntoLanes c e lanes) L,
        lane.Pairwise (fun a b => spansOverlap (daySpanOf c a) (daySpanOf c b) = false) := by
    intro es
    induction es with
    | nil => intro L hL; simpa using hL
    | cons e rest ih =>
      intro L hL
      simp only [List.foldl_cons]
      exact ih _ (insertIntoLanes_disjoint c e L hL)
  unfold placeIntoLanes
  exact hgen (jsSortBy cmpTime evs) [] (by simp)

theorem covers_covers_overlap (c : Int) (a b : CalendarEvent) (d : Int)
    (ha : coversDay c a d = true) (hb : coversDay c b d = true) :
    spansOverlap (daySpanOf c a) (daySpanOf c b) = true := by
  simp only [coversDay, Bool.and_eq_true, decide_eq_true_eq] at ha hb
  simp only [spansOverlap, Bool.and_eq_true, decide_eq_true_eq]
  omega

theorem countP_covers_of_disjoint (c : Int) (d : Int) (lane : List CalendarEvent)
    (h : lane.Pairwise (fun a b => spansOverlap (daySpanOf c a) (daySpanOf c b) = false)) :
    lane.countP (fun e => coversDay c e d) =
      if lane.any (fun e => coversDay c e d) then 1 else 0 := by
  induction lane with
  | nil => simp
  | cons a lane ih =>
    rcases List.pairwise_cons.mp h with ⟨ha, hl⟩
    by_cases hc : coversDay c a d = true
    · have hzero : lane.countP (fun e => coversDay c e d) = 0 := by
        refine List.countP_eq_zero.mpr ?_
        intro x hx hcx
        have hover := ha x hx
        rw [covers_covers_overlap c a x d hc hcx] at hover
        exact absurd hover (by simp)
      simp [List.countP_cons, List.any_cons, hzero, hc]
    · have hc' : coversDay c a d = false := by simpa using hc
      simp [List.countP_cons, List.any_cons, hc', ih hl]

theorem sum_countP_covers (c : Int) (d : Int) (L : List (List CalendarEvent))
    (h : ∀ lane ∈ L,
      lane.Pairwise (fun a b => spansOverlap (daySpanOf c a) (daySpanOf c b) = false)) :
    (L.map (fun lane => lane.countP (fun e => coversDay c e d))).sum =
      L.countP (fun lane => lane.any (fun e => coversDay c e d)) := by
  induction L with
  | nil => simp
  | cons lane rest ih =>
    simp only [List.map_cons, List.sum_cons, List.countP_cons]
    rw [countP_covers_of_disjoint c d lane (h lane (List.mem_cons_self lane rest)),
      ih (fun x hx => h x (List.mem_cons_of_mem lane hx))]
    split_ifs <;> omega

theorem countP_flatten_eq (p : α → Bool) (L : List (List α)) :
    L.flatten.countP p = (L.map (fun l => l.countP p)).sum := by
  induction L with
  | nil => simp
  | cons l rest ih => simp [List.countP_append, ih]

/-- **C7** — Overflow capacity invariant of the week view's all-day lane
packing: for every day, the number of visible lanes carrying an event of
that day plus the number of overflow events of that day equals the total
number of all-day-section events covering that day, and the visible lane
count never exceeds the configured `minVisibleLanes` (10). -/
theorem c7_overflow_capacity_invariant (c : Int) (evs : List CalendarEvent) (d : Int) :
    visibleLaneCount c evs d + overflowCountOnDay c evs d = totalOnDay c evs d ∧
    visibleLaneCount c evs d ≤ minVisibleLanes := by
  constructor
  · have hperm := placeIntoLanes_flatten_perm c (allDayEventsWeek true c evs)
    have htot : totalOnDay c evs d =
        ((placeIntoLanes c (allDayEventsWeek true c evs)).flatten).countP
          (fun e => coversDay c e d) :=
      (hperm.countP_eq _).symm
    have hsplit : placeIntoLanes c (allDayEventsWeek true c evs) =
        (placeIntoLanes c (allDayEventsWeek true c evs)).take minVisibleLanes ++
          (placeIntoLanes c (allDayEventsWeek true c evs)).drop minVisibleLanes :=
      (List.take_append_drop _ _).symm
    rw [htot, hsplit, List.flatten_append, List.countP_append]
    have hvis : (((placeIntoLanes c (allDayEventsWeek true c evs)).take
          minVisibleLanes).flatten).countP (fun e => coversDay c e d) =
        visibleLaneCount c evs d := by
      rw [countP_flatten_eq]
      exact sum_countP_covers c d _
        (fun lane hlane => placeIntoLanes_disjoint c (allDayEventsWeek true c evs) lane
          (List.mem_of_mem_take hlane))
    rw [hvis]
    rfl
  · unfold visibleLaneCount
    calc (visibleLanes c evs).countP (fun lane => lane.any (fun e => coversDay c e d)) ≤
          (visibleLanes c evs).length := List.countP_le_length _
      _ ≤ minVisibleLanes := by
          unfold visibleLanes
          simp [List.length_take]

/-! ### Week view: window-spanning events and overflow keying -/

/-- **C10** — With weekends shown, an event starting strictly before the
first window day whose (exclusive-end-adjusted) end lies strictly after the
last window day fails both inclusion tests, so it is excluded from the
week's all-day event list and hence from every lane and from the overflow
set, even though it overlaps every window day. -/
theorem c10_spanning_event_excluded (c : Int) (evs : List CalendarEvent) (e : CalendarEvent)
    (h1 : e.start < startOfWeek c) (h2 : weekEndOf c < adjustedEventEnd e) :
    e ∉ allDayEventsWeek true c evs ∧
    (∀ lane ∈ visibleLanes c evs, e ∉ lane) ∧
    e ∉ overflowEvents c evs := by
  have hmain : e ∉ allDayEventsWeek true c evs := by
    intro hmem
    unfold allDayEventsWeek at hmem
    rw [if_pos rfl] at hmem
    have hpred := (List.mem_filter.mp hmem).2
    simp only [weekMembership, isWithinInterval, Bool.or_eq_true, Bool.and_eq_true,
      decide_eq_true_eq] at hpred
    omega
  have hflat : e ∉ (placeIntoLanes c (allDayEventsWeek true c evs)).flatten := by
    intro hmem
    exact hmain ((placeIntoLanes_flatten_perm c (allDayEventsWeek true c evs)).mem_iff.mp hmem)
  refine ⟨hmain, ?_, ?_⟩
  · intro lane hlane hmem
    exact hflat (List.mem_flatten.mpr ⟨lane, List.mem_of_mem_take hlane, hmem⟩)
  · intro hmem
    unfold overflowEvents at hmem
    rcases List.mem_flatten.mp hmem with ⟨lane, hlane, hmemlane⟩
    exact hflat (List.mem_flatten.mpr ⟨lane, List.mem_of_mem_drop hlane, hmemlane⟩)

/-- Witness for C10 at a concrete input: a timed event spanning from before
the window to after it is excluded everywhere. -/
theorem c10_witness :
    (⟨1, "", 2880, 14400, false⟩ : CalendarEvent) ∉
        allDayEventsWeek true 4320 [⟨1, "", 2880, 14400, false⟩] ∧
    (∀ lane ∈ visibleLanes 4320 [⟨1, "", 2880, 14400, false⟩],
      (⟨1, "", 2880, 14400, false⟩ : CalendarEvent) ∉ lane) ∧
    (⟨1, "", 2880, 14400, false⟩ : CalendarEvent) ∉
      overflowEvents 4320 [⟨1, "", 2880, 14400, false⟩] :=
  c10_spanning_event_excluded 4320 [⟨1, "", 2880, 14400, false⟩]
    ⟨1, "", 2880, 14400, false⟩ (by decide) (by decide)

theorem mem_dayOverflowEvents_iff (c : Int) (evs : List CalendarEvent) (d : Int)
    (e : CalendarEvent) :
    e ∈ dayOverflowEvents c evs d ↔
      e ∈ overflowEvents c evs ∧ isSameDay e.start d = true := by
  unfold dayOverflowEvents
  exact List.mem_filter

theorem countP_sameDay_weekdays (m S : Int) :
    (([1440 * m, 1440 * m + 1440, 1440 * m + 2880, 1440 * m + 4320,
        1440 * m + 5760, 1440 * m + 7200, 1440 * m + 8640]).countP
      (fun d => isSameDay S d)) =
      if 1440 * m ≤ S ∧ S < 1440 * m + 7 * 1440 then 1 else 0 := by
  simp only [List.countP_cons, List.countP_nil, isSameDay, decide_eq_true_eq]
  split_ifs <;> omega

/-- **C3 (amended)** — Each day's overflow indicator lists exactly the
overflow events whose start falls on that day; consequently an overflow
event starting within the window is reported exactly once (on its start
day), while an overflow event whose start precedes the window is reported
on no window day. -/
theorem c3_overflow_keyed_by_start_day (c : Int) (evs : List CalendarEvent)
    (e : CalendarEvent) (h : e ∈ overflowEvents c evs) :
    (∀ d, e ∈ dayOverflowEvents c evs d ↔ isSameDay e.start d = true) ∧
    ((getWeekDays c).countP (fun d => decide (e ∈ dayOverflowEvents c evs d)) =
      if startOfWeek c ≤ e.start ∧ e.start < startOfWeek c + 7 * 1440 then 1 else 0) := by
  have hiff : ∀ d, e ∈ dayOverflowEvents c evs d ↔ isSameDay e.start d = true := by
    intro d
    rw [mem_dayOverflowEvents_iff]
    exact ⟨fun hx => hx.2, fun hx => ⟨h, hx⟩⟩
  refine ⟨hiff, ?_⟩
  have hcongr : (getWeekDays c).countP (fun d => decide (e ∈ dayOverflowEvents c evs d)) =
      (getWeekDays c).countP (fun d => isSameDay e.start d) := by
    refine List.countP_congr ?_
    intro d hd
    rw [decide_eq_true_eq]
    exact hiff d
  rw [hcongr]
  have hm : startOfWeek c = 1440 * (c / 1440 - (c / 1440 + 4) % 7) := rfl
  unfold getWeekDays
  rw [hm]
  exact countP_sameDay_weekdays (c / 1440 - (c / 1440 + 4) % 7) e.start

/-- Counterexample to C3 as stated: eleven mutually overlapping multi-day
events make one overflow event (the one sorted last), and that event starts
the day before the window — so it is listed in no window day's overflow
indicator, not "exactly once". -/
theorem c3_counterexample :
    (⟨11, "", 2880, 5760, false⟩ : CalendarEvent) ∈
        overflowEvents 4320
          [⟨1, "", 1440, 5760, false⟩, ⟨2, "", 1440, 5760, false⟩,
            ⟨3, "", 1440, 5760, false⟩, ⟨4, "", 1440, 5760, false⟩,
            ⟨5, "", 1440, 5760, false⟩, ⟨6, "", 1440, 5760, false⟩,
            ⟨7, "", 1440, 5760, false⟩, ⟨8, "", 1440, 5760, false⟩,
            ⟨9, "", 1440, 5760, false⟩, ⟨10, "", 1440, 5760, false⟩,
            ⟨11, "", 2880, 5760, false⟩] ∧
    ∀ d ∈ getWeekDays 4320,
      (⟨11, "", 2880, 5760, false⟩ : CalendarEvent) ∉
        dayOverflowEvents 4320
          [⟨1, "", 1440, 5760, false⟩, ⟨2, "", 1440, 5760, false⟩,
            ⟨3, "", 1440, 5760, false⟩, ⟨4, "", 1440, 5760, false⟩,
            ⟨5, "", 1440, 5760, false⟩, ⟨6, "", 1440, 5760, false⟩,
            ⟨7, "", 1440, 5760, false⟩, ⟨8, "", 1440, 5760, false⟩,
            ⟨9, "", 1440, 5760, false⟩, ⟨10, "", 1440, 5760, false⟩,
            ⟨11, "", 2880, 5760, false⟩] d := by
  decide

/-- Witness for C3 (amended) at a concrete input: an overflow event starting
inside the window is reported exactly once. -/
theorem c3_witness :
    (∀ d, (⟨11, "", 4320, 5760, false⟩ : CalendarEvent) ∈
        dayOverflowEvents 4320
          [⟨1, "", 1440, 5760, false⟩, ⟨2, "", 1440, 5760, false⟩,
            ⟨3, "", 1440, 5760, false⟩, ⟨4, "", 1440, 5760, false⟩,
            ⟨5, "", 1440, 5760, false⟩, ⟨6, "", 1440, 5760, false⟩,
            ⟨7, "", 1440, 5760, false⟩, ⟨8, "", 1440, 5760, false⟩,
            ⟨9, "", 1440, 5760, false⟩, ⟨10, "", 1440, 5760, false⟩,
            ⟨11, "", 4320, 5760, false⟩] d ↔
        isSameDay 4320 d = true) ∧
    ((getWeekDays 4320).countP (fun d => decide
        ((⟨11, "", 4320, 5760, false⟩ : CalendarEvent) ∈
          dayOverflowEvents 4320
            [⟨1, "", 1440, 5760, false⟩, ⟨2, "", 1440, 5760, false⟩,
              ⟨3, "", 1440, 5760, false⟩, ⟨4, "", 1440, 5760, false⟩,
              ⟨5, "", 1440, 5760, false⟩, ⟨6, "", 1440, 5760, false⟩,
              ⟨7, "", 1440, 5760, false⟩, ⟨8, "", 1440, 5760, false⟩,
              ⟨9, "", 1440, 5760, false⟩, ⟨10, "", 1440, 5760, false⟩,
              ⟨11, "", 4320, 5760, false⟩] d)) =
      if startOfWeek 4320 ≤ (4320 : Int) ∧ (4320 : Int) < startOfWeek 4320 + 7 * 1440
      then 1 else 0) :=
  c3_overflow_keyed_by_start_day 4320
    [⟨1, "", 1440, 5760, false⟩, ⟨2, "", 1440, 5760, false⟩,
      ⟨3, "", 1440, 5760, false⟩, ⟨4, "", 1440, 5760, false⟩,
      ⟨5, "", 1440, 5760, false⟩, ⟨6, "", 1440, 5760, false⟩,
      ⟨7, "", 1440, 5760, false⟩, ⟨8, "", 1440, 5760, false⟩,
      ⟨9, "", 1440, 5760, false⟩, ⟨10, "", 1440, 5760, false⟩,
      ⟨11, "", 4320, 5760, false⟩]
    ⟨11, "", 4320, 5760, false⟩ (by decide)

end Analog
